import Mathlib

/-!
Verification development for the block-chain traversal and streaming layer
(`src/jormungandr/src/blockchain/storage.rs`) and the leadership log registry
(`src/jormungandr/src/leadership/logs.rs`).

The backing block store (`chain_storage` crate) is an external collaborator;
its primitives (`get_block`, `get_block_info`, `is_ancestor`,
`for_path_to_nth_ancestor`) are modelled from the contract stated in the
specification (section 6).  All storage-layer logic under `src/` is translated
directly from the source.
-/

namespace Jorm

/-- Equality of fallible results is decidable. -/
def exceptDecEq {ε α : Type} [DecidableEq ε] [DecidableEq α] :
    (a b : Except ε α) → Decidable (a = b)
  | .ok a, .ok b =>
    if h : a = b then .isTrue (by rw [h]) else .isFalse (by intro hh; cases hh; exact h rfl)
  | .error a, .error b =>
    if h : a = b then .isTrue (by rw [h]) else .isFalse (by intro hh; cases hh; exact h rfl)
  | .ok _, .error _ => .isFalse (by intro h; cases h)
  | .error _, .ok _ => .isFalse (by intro h; cases h)

instance {ε α : Type} [DecidableEq ε] [DecidableEq α] : DecidableEq (Except ε α) :=
  exceptDecEq

/-- Block content hash (`HeaderHash`), modelled as an opaque natural number. -/
abbrev Hash := Nat

/-- `chain_storage::store::BlockInfo`: per-block metadata.  The crate stores a
set of back links; the distance-1 back link (`parent_id()`) is the only one the
specification relies on, so the metadata is modelled as
`{ hash, depth, parent_hash }` exactly as in the spec's data model. -/
structure BlockInfo where
  block_hash : Hash
  depth : Nat
  parent : Hash
deriving DecidableEq, Repr

/-- `BlockInfo::parent_id()`. -/
def BlockInfo.parent_id (bi : BlockInfo) : Hash := bi.parent

/-- A stored block: the header carries the parent hash
(`block.header.block_parent_hash()`); all other content is opaque. -/
structure Block where
  hash : Hash
  parent_hash : Hash
deriving DecidableEq, Repr

/-- The block value stored for a metadata entry. -/
def blockOf (bi : BlockInfo) : Block := ⟨bi.block_hash, bi.parent⟩

/-- `chain_storage::error::Error` restricted to the kinds the spec names:
`BlockNotFound`, `CannotIterate`, and a generic backend error. -/
inductive StorageError where
  | BlockNotFound
  | CannotIterate
  | Other
deriving DecidableEq, Repr

/-- The persisted content of a `NodeStorage` backend: a finite collection of
metadata entries indexed by block hash. -/
abbrev Store := List BlockInfo

/-- Hash-indexed metadata lookup in the backing store. -/
def lookupInfo (s : Store) (h : Hash) : Option BlockInfo :=
  s.find? (fun bi => bi.block_hash == h)

/-- Modelled from the spec: store primitive
`get_block_info(hash) -> Result<BlockMetadata, NotFound | Other>`. -/
def get_block_info (s : Store) (h : Hash) : Except StorageError BlockInfo :=
  match lookupInfo s h with
  | some bi => .ok bi
  | none => .error .BlockNotFound

/-- Modelled from the spec: store primitive
`get_block(hash) -> Result<(Block, BlockMetadata), NotFound | Other>`. -/
def get_block (s : Store) (h : Hash) : Except StorageError (Block × BlockInfo) :=
  (get_block_info s h).map (fun bi => (blockOf bi, bi))

/-- Well-formedness of a store, from the spec's data-model invariants:
every entry is found at its own hash, depths are 1-based, and
`depth(child) = depth(parent) + 1` for every parent/child pair, the genesis
block (depth 1) having no stored parent. -/
def wfB (s : Store) : Bool :=
  s.all fun bi =>
    (lookupInfo s bi.block_hash == some bi) &&
    decide (1 ≤ bi.depth) &&
    (match lookupInfo s bi.parent with
     | some p => p.depth + 1 == bi.depth
     | none => bi.depth == 1)

/-- The metadata of the `n`-th ancestor of the block at `h` (0th = the block
itself), following parent links. -/
def nthAncestorInfo (s : Store) (h : Hash) : Nat → Except StorageError BlockInfo
  | 0 => get_block_info s h
  | n+1 =>
    match get_block_info s h with
    | .error e => .error e
    | .ok bi => nthAncestorInfo s bi.parent n

/-- Modelled from the spec: store primitive
`is_ancestor(from, to) -> Result<Option<u64>, NotFound | Other>` — `None`
means `from` is not an ancestor of `to`; `Some d` is the depth difference.
`NotFound` when either hash is unresolvable. -/
def is_ancestor (s : Store) (f t : Hash) : Except StorageError (Option Nat) :=
  match get_block_info s f with
  | .error e => .error e
  | .ok fi =>
    match get_block_info s t with
    | .error e => .error e
    | .ok ti =>
      if fi.depth ≤ ti.depth then
        match nthAncestorInfo s t (ti.depth - fi.depth) with
        | .ok ai => .ok (if ai.block_hash = f then some (ti.depth - fi.depth) else none)
        | .error _ => .ok none
      else .ok none

/-- Modelled from the spec: store primitive
`nth_ancestor(start_hash, n, visit_each_intermediate)`
(`chain_storage::store::for_path_to_nth_ancestor`).  Walks `n` parent steps
from `start_hash`; the callback receives every metadata it visits,
furthest (deepest) first, the final metadata being returned instead of
visited.  The visited list is returned in visit order. -/
def for_path_to_nth_ancestor (s : Store) (h : Hash) :
    Nat → Except StorageError (List BlockInfo × BlockInfo)
  | 0 => (get_block_info s h).map (fun bi => ([], bi))
  | n+1 =>
    match get_block_info s h with
    | .error e => .error e
    | .ok bi =>
      match for_path_to_nth_ancestor s bi.parent n with
      | .error e => .error e
      | .ok (vs, r) => .ok (bi :: vs, r)

/-- Errors surfaced by `BlockIterState::get_next`: either a storage error, or a
Rust panic (a violated `assert!` or `unwrap`). -/
inductive IterError where
  | storage (e : StorageError)
  | panicked
deriving DecidableEq, Repr

/-- `BlockIterState` (the Ancestor Walk State).  `pending_infos` is the Walk
Frame Stack; the Rust `Vec` pushes and pops at its end, modelled here with the
TOP of the stack at the HEAD of the list. -/
structure BlockIterState where
  to_depth : Nat
  cur_depth : Nat
  pending_infos : List BlockInfo
deriving DecidableEq, Repr

/-- `BlockIterState::new`. -/
def BlockIterState.new (to_info : BlockInfo) (distance : Nat) : BlockIterState :=
  { to_depth := to_info.depth
    cur_depth := to_info.depth - distance
    pending_infos := [to_info] }

/-- `BlockIterState::has_next`. -/
def BlockIterState.has_next (st : BlockIterState) : Bool :=
  st.cur_depth < st.to_depth

/-- `BlockIterState::get_next`.  On a storage error the Rust iterator state has
been partially advanced; that partial state is observed by no caller in this
layer (streams and senders surface or forward the error), so the error cases
return the error alone. -/
def BlockIterState.get_next (st : BlockIterState) (s : Store) :
    Except IterError (Block × BlockIterState) :=
  if st.has_next then
    let cur := st.cur_depth + 1
    match st.pending_infos with
    | [] => .error .panicked
    | block_info :: rest =>
      if block_info.depth = cur then
        match get_block s block_info.block_hash with
        | .error e => .error (.storage e)
        | .ok (block, _) => .ok (block, ⟨st.to_depth, cur, rest⟩)
      else if cur < block_info.depth then
        match for_path_to_nth_ancestor s block_info.parent_id (block_info.depth - cur - 1) with
        | .error e => .error (.storage e)
        | .ok (visited, bi) =>
          match get_block s bi.block_hash with
          | .error e => .error (.storage e)
          | .ok (block, _) =>
            .ok (block, ⟨st.to_depth, cur, visited.reverse ++ block_info :: rest⟩)
      else .error .panicked
  else .error .panicked

/-- Repeated polling of a `BlockStream`: each poll yields the next block while
`has_next` holds, and ends the stream otherwise.  `fuel` bounds the number of
polls; a run with `fuel = to_depth - cur_depth` is exhaustive. -/
def runIter (s : Store) : Nat → BlockIterState → Except IterError (List Block)
  | 0, _ => .ok []
  | fuel+1, st =>
    if st.has_next then
      match st.get_next s with
      | .error e => .error e
      | .ok (b, st') =>
        match runIter s fuel st' with
        | .error e => .error e
        | .ok bs => .ok (b :: bs)
    else .ok []

/-- The complete sequence of blocks yielded by a `BlockStream` driven from
state `st` to exhaustion. -/
def streamList (s : Store) (st : BlockIterState) : Except IterError (List Block) :=
  runIter s (st.to_depth - st.cur_depth) st

/-- `Storage::stream_from_to`: returns (the state of) the forward stream. -/
def stream_from_to (s : Store) (f t : Hash) : Except StorageError BlockIterState :=
  match is_ancestor s f t with
  | .error e => .error e
  | .ok none => .error .CannotIterate
  | .ok (some distance) =>
    match get_block_info s t with
    | .error e => .error e
    | .ok to_info => .ok (BlockIterState.new to_info distance)

/-- `BlockStreamReversed` (the storage handle is passed at each poll). -/
structure BlockStreamReversed where
  last_block : Hash
  to_ : Option Hash
  finished : Bool
deriving DecidableEq, Repr

/-- `BlockStreamReversed::new`. -/
def BlockStreamReversed.new (from_ : Hash) (to_ : Option Hash) : BlockStreamReversed :=
  { last_block := from_, to_ := to_, finished := false }

/-- `BlockStreamReversed::poll` (one pull of the reverse stream). -/
def BlockStreamReversed.poll (st : BlockStreamReversed) (s : Store) :
    Except StorageError (Option Block × BlockStreamReversed) :=
  if st.finished then .ok (none, st)
  else
    match get_block s st.last_block with
    | .error e => .error e
    | .ok (block, block_info) =>
      match st.to_ with
      | some t =>
        if t = st.last_block then .ok (some block, { st with finished := true })
        else .ok (some block, st)
      | none =>
        if block_info.depth > 1 then
          .ok (some block, { st with last_block := block.parent_hash })
        else .ok (some block, { st with finished := true })

/-- Repeated polling of a `BlockStreamReversed`, collecting the yielded blocks
until `fuel` polls have happened or the stream yields `None`. -/
def runReverse (s : Store) :
    Nat → BlockStreamReversed → Except StorageError (List Block × BlockStreamReversed)
  | 0, st => .ok ([], st)
  | fuel+1, st =>
    match st.poll s with
    | .error e => .error e
    | .ok (none, st') => .ok ([], st')
    | .ok (some b, st') =>
      match runReverse s fuel st' with
      | .error e => .error e
      | .ok (bs, stf) => .ok (b :: bs, stf)

/-- `Storage::stream_from_to_reversed`. -/
def stream_from_to_reversed (s : Store) (from_ : Hash) (to_ : Option Hash) :
    Except StorageError BlockStreamReversed :=
  match to_ with
  | some t =>
    match is_ancestor s from_ t with
    | .error e => .error e
    | .ok none => .error .CannotIterate
    | .ok (some _) => .ok (BlockStreamReversed.new from_ to_)
  | none => .ok (BlockStreamReversed.new from_ none)

/-- `Ancestor`: a closest-ancestor resolver result. -/
structure Ancestor where
  header_hash : Hash
  distance : Nat
deriving DecidableEq, Repr

/-- The loop of `Storage::find_closest_ancestor`, with the `ancestor` and
`closest_found` accumulators made explicit. -/
def find_closest_ancestor_go (s : Store) (descendant : Hash) :
    List Hash → Option Hash → Nat → Except StorageError (Option Hash × Nat)
  | [], ancestor, closest_found => .ok (ancestor, closest_found)
  | checkpoint :: rest, ancestor, closest_found =>
    match is_ancestor s checkpoint descendant with
    | .ok none => find_closest_ancestor_go s descendant rest ancestor closest_found
    | .ok (some distance) =>
      if closest_found > distance then
        find_closest_ancestor_go s descendant rest (some checkpoint) distance
      else
        find_closest_ancestor_go s descendant rest ancestor closest_found
    | .error .BlockNotFound =>
      find_closest_ancestor_go s descendant rest ancestor closest_found
    | .error e => .error e

/-- `Storage::find_closest_ancestor`; `closest_found` starts at `u64::MAX`. -/
def find_closest_ancestor (s : Store) (checkpoints : List Hash) (descendant : Hash) :
    Except StorageError (Option Ancestor) :=
  match find_closest_ancestor_go s descendant checkpoints none (2 ^ 64 - 1) with
  | .error e => .error e
  | .ok (ancestor, closest_found) =>
    .ok (ancestor.map (fun header_hash => ⟨header_hash, closest_found⟩))

/-- An item pushed into the branch-send sink: `Result<Block, E>` with the
error type instantiated at the storage error kind (the `E: From<StorageError>`
translation is the identity here). -/
abbrev SinkItem := Except StorageError Block

/-- Observable sink activity, in order of occurrence. -/
inductive SinkEvent where
  | sent (item : SinkItem)
  | flushed
  | closed
deriving DecidableEq, Repr

/-- Modelled from the spec: the external sink consumed by the Branch Sender.
`sched` is the schedule of readiness answers for successive `start_send`
attempts (`true` = accepted, exhausted schedule = always accepted); `events`
records every accepted item, flush and close.  `poll_complete` and `close`
are always ready in this model. -/
structure MSink where
  sched : List Bool
  events : List SinkEvent
deriving DecidableEq, Repr

/-- `Sink::start_send`: `true` = `AsyncSink::Ready` (item accepted),
`false` = `AsyncSink::NotReady` (item handed back). -/
def MSink.start_send (sink : MSink) (item : SinkItem) : Bool × MSink :=
  match sink.sched with
  | [] => (true, { sink with events := sink.events ++ [.sent item] })
  | r :: rest =>
    if r then (true, { sched := rest, events := sink.events ++ [.sent item] })
    else (false, { sink with sched := rest })

/-- `Sink::poll_complete` (flush), always ready in this model. -/
def MSink.poll_complete (sink : MSink) : MSink :=
  { sink with events := sink.events ++ [.flushed] }

/-- `Sink::close`, always ready in this model. -/
def MSink.close (sink : MSink) : MSink :=
  { sink with events := sink.events ++ [.closed] }

/-- The result of polling one step of the cooperative sender. -/
inductive PollR (α : Type) where
  | ready (a : α)
  | notReady
deriving Repr

/-- Equality on poll results is decidable. -/
def PollR.decEq {α : Type} [DecidableEq α] : (a b : PollR α) → Decidable (a = b)
  | .ready a, .ready b =>
    if h : a = b then .isTrue (by rw [h]) else .isFalse (by intro hh; cases hh; exact h rfl)
  | .ready _, .notReady => .isFalse (by intro h; cases h)
  | .notReady, .ready _ => .isFalse (by intro h; cases h)
  | .notReady, .notReady => .isTrue rfl

instance {α : Type} [DecidableEq α] : DecidableEq (PollR α) := PollR.decEq

/-- `SendState`: the branch sender's state between polls. -/
structure SendState where
  iter : BlockIterState
  pending : Option SinkItem
deriving DecidableEq, Repr

/-- The tail of `SendState::poll_continue` after the pending item (if any) has
been dispatched: flush the sink and report `true` when the walk has more
items, close it and report `false` otherwise. -/
def pollContinueTail (st : SendState) (sink : MSink) : PollR Bool × SendState × MSink :=
  if st.iter.has_next then (.ready true, st, sink.poll_complete)
  else (.ready false, st, sink.close)

/-- `SendState::poll_continue`. -/
def SendState.poll_continue (st : SendState) (sink : MSink) :
    PollR Bool × SendState × MSink :=
  match st.pending with
  | some item =>
    match sink.start_send item with
    | (true, sink') => pollContinueTail { st with pending := none } sink'
    | (false, sink') => (.notReady, st, sink')
  | none => pollContinueTail st sink

/-- The send attempt inside `SendState::fill_sink` for a freshly fetched item.
The final `Bool` records whether the task rescheduled itself
(`task::current().notify()`), i.e. suspended deliberately with work left. -/
def sendAttempt (item : SinkItem) (iter' : BlockIterState) (sink : MSink) :
    PollR Unit × SendState × MSink × Bool :=
  match sink.start_send item with
  | (true, sink') =>
    if iter'.has_next then (.notReady, ⟨iter', none⟩, sink', true)
    else (.ready (), ⟨iter', none⟩, sink', false)
  | (false, sink') => (.notReady, ⟨iter', some item⟩, sink', false)

/-- `SendState::fill_sink`.  `none` models a Rust panic (the `assert!` on
entry, or a panic inside `get_next`).  A storage error from the walk is
translated into an in-band `Err` item; the partially advanced Rust iterator
state on that path is observed by no conclusion proved here and is modelled
by the pre-call state. -/
def SendState.fill_sink (st : SendState) (s : Store) (sink : MSink) :
    Option (PollR Unit × SendState × MSink × Bool) :=
  if st.iter.has_next then
    match st.iter.get_next s with
    | .error .panicked => none
    | .error (.storage e) => some (sendAttempt (.error e) st.iter sink)
    | .ok (b, iter') => some (sendAttempt (.ok b) iter' sink)
  else none

/-- One iteration of the driving loop in `Storage::send_branch`:
`while try_ready!(state.poll_continue()) { try_ready!(state.fill_sink(..)) }`. -/
def send_step (s : Store) (st : SendState) (sink : MSink) :
    Option (PollR Unit × SendState × MSink × Bool) :=
  match st.poll_continue sink with
  | (.ready true, st1, sink1) => st1.fill_sink s sink1
  | (.ready false, st1, sink1) => some (.ready (), st1, sink1, false)
  | (.notReady, st1, sink1) => some (.notReady, st1, sink1, false)

/-- Modelled from the spec: `sink.send_all(stream::once(Ok(item)))` — the
completed future's net effect is that the single item is delivered and the
sink is then closed (spec section 4.5, `ErrorSend`). -/
def sendAllOnce (item : SinkItem) (sink : MSink) : MSink :=
  { sink with events := sink.events ++ [.sent item, .closed] }

/-- The two setup outcomes of `Storage::send_branch` (`Either::A` drives a
`SendState`; `Either::B` is the error path whose final sink is recorded). -/
inductive SendBranch where
  | streaming (st : SendState)
  | errorPath (final : MSink)
deriving DecidableEq, Repr

/-- `Storage::send_branch` setup: resolve the target's metadata, build the
walk over `depth` (or `to_depth - 1` when unspecified), or send the single
translated error and close. -/
def send_branch (s : Store) (to_ : Hash) (depth : Option Nat) (sink : MSink) : SendBranch :=
  match get_block_info s to_ with
  | .ok to_info => .streaming ⟨BlockIterState.new to_info (depth.getD (to_info.depth - 1)), none⟩
  | .error e => .errorPath (sendAllOnce (.error e) sink)

/-- A leadership log record; the status payload is opaque here. -/
structure LeadershipLog where
  wake : Bool
  finished : Bool
  status : Nat
deriving DecidableEq, Repr

/-- `LeadershipLog::mark_wake` (the record update, from `jormungandr_lib`). -/
def LeadershipLog.mark_wake (l : LeadershipLog) : LeadershipLog :=
  { l with wake := true }

/-- `LeadershipLog::mark_finished`. -/
def LeadershipLog.mark_finished (l : LeadershipLog) : LeadershipLog :=
  { l with finished := true }

/-- `LeadershipLog::set_status`. -/
def LeadershipLog.set_status (l : LeadershipLog) (status : Nat) : LeadershipLog :=
  { l with status := status }

/-- `internal::Logs`: the id-indexed registry.  The `DelayQueue` TTL machinery
(`expirations`, `reset_at`, `poll_purge`) is real-time behavior outside the
shallow embedding; only the entry map that decides the panicking branches is
modelled. -/
structure ILogs where
  entries : List (Nat × LeadershipLog)
deriving DecidableEq, Repr

/-- `HashMap::get_mut`-style lookup on the entries. -/
def lookupLog (entries : List (Nat × LeadershipLog)) (id : Nat) : Option LeadershipLog :=
  (entries.find? (fun e => e.fst == id)).map (·.snd)

/-- In-place update of the entry at `id`. -/
def updateLog (entries : List (Nat × LeadershipLog)) (id : Nat)
    (f : LeadershipLog → LeadershipLog) : List (Nat × LeadershipLog) :=
  entries.map (fun e => if e.fst == id then (e.fst, f e.snd) else e)

/-- `internal::Logs::mark_wake`; `none` models the `unimplemented!()` panic on
a missing id. -/
def ILogs.mark_wake (st : ILogs) (id : Nat) : Option ILogs :=
  match lookupLog st.entries id with
  | some _ => some ⟨updateLog st.entries id LeadershipLog.mark_wake⟩
  | none => none

/-- `internal::Logs::set_status`; `none` models the `unimplemented!()` panic. -/
def ILogs.set_status (st : ILogs) (id : Nat) (status : Nat) : Option ILogs :=
  match lookupLog st.entries id with
  | some _ => some ⟨updateLog st.entries id (fun l => l.set_status status)⟩
  | none => none

/-- `internal::Logs::mark_finished`; `none` models the `unimplemented!()`
panic. -/
def ILogs.mark_finished (st : ILogs) (id : Nat) : Option ILogs :=
  match lookupLog st.entries id with
  | some _ => some ⟨updateLog st.entries id LeadershipLog.mark_finished⟩
  | none => none

/-- `LeadershipLogHandle`: carries only the internal id; every public method
forwards to the registry operation at that id. -/
structure LeadershipLogHandle where
  internal_id : Nat
deriving DecidableEq, Repr

/-- `LeadershipLogHandle::mark_wake` (forwards through `Logs::mark_wake`). -/
def LeadershipLogHandle.mark_wake (h : LeadershipLogHandle) (st : ILogs) : Option ILogs :=
  st.mark_wake h.internal_id

/-- `LeadershipLogHandle::set_status`. -/
def LeadershipLogHandle.set_status (h : LeadershipLogHandle) (st : ILogs)
    (status : Nat) : Option ILogs :=
  st.set_status h.internal_id status

/-- `LeadershipLogHandle::mark_finished`. -/
def LeadershipLogHandle.mark_finished (h : LeadershipLogHandle) (st : ILogs) : Option ILogs :=
  st.mark_finished h.internal_id

/-- A store entry with intact chain structure: found at its own hash, 1-based
depth, and a parent entry one level up unless it is the genesis block. -/
def GoodEntry (s : Store) (bi : BlockInfo) : Prop :=
  lookupInfo s bi.block_hash = some bi ∧ 1 ≤ bi.depth ∧
    ((∃ p, lookupInfo s bi.parent = some p ∧ p.depth + 1 = bi.depth) ∨
     (lookupInfo s bi.parent = none ∧ bi.depth = 1))

/-- `f` is an ancestor of `t` at ancestor distance `d`: following `d` parent
links from `t` reaches the block at `f`. -/
def IsAncestorAt (s : Store) (f t : Hash) (d : Nat) : Prop :=
  ∃ bi, nthAncestorInfo s t d = .ok bi ∧ bi.block_hash = f

/-- The stored depth of the block at `h` (0 when absent). -/
def depthOf (s : Store) (h : Hash) : Nat :=
  match lookupInfo s h with
  | some bi => bi.depth
  | none => 0

/-- The Walk Frame Stack invariant claimed by the spec: frame depths strictly
decrease from the bottom of the stack to the top (the head of
`pending_infos` is the top), and the current depth is at most the depth of
the top frame. -/
def StackInv (st : BlockIterState) : Prop :=
  st.pending_infos.Pairwise (fun a b => a.depth < b.depth) ∧
  ∀ top, st.pending_infos.head? = some top → st.cur_depth ≤ top.depth

/-- The full internal invariant of an Ancestor Walk State over the chain of
the target block `t`: every pending frame is the ancestor of `t` at the
distance determined by its depth, frame depths strictly increase from top
(head) to bottom, all frames sit strictly above the current depth while the
walk is unfinished, and the bottom frame is the target's own metadata. -/
def IterInv (s : Store) (t : Hash) (st : BlockIterState) : Prop :=
  (∀ bi ∈ st.pending_infos,
     nthAncestorInfo s t (st.to_depth - bi.depth) = .ok bi ∧
     bi.depth ≤ st.to_depth ∧ st.cur_depth ≤ bi.depth) ∧
  st.pending_infos.Pairwise (fun a b => a.depth < b.depth) ∧
  (st.cur_depth < st.to_depth →
     st.pending_infos ≠ [] ∧ ∀ bi ∈ st.pending_infos, st.cur_depth < bi.depth) ∧
  (∀ b, st.pending_infos.getLast? = some b → b.depth = st.to_depth)

/-- States reachable from a constructed Ancestor Walk State through successful
`get_next` calls. -/
inductive Reach (s : Store) : BlockIterState → BlockIterState → Prop
  | refl (st : BlockIterState) : Reach s st st
  | step {st st' st'' : BlockIterState} {b : Block} :
      Reach s st st' → st'.get_next s = .ok (b, st'') → Reach s st st''

/-- The ancestor distance of checkpoint `cp` relative to `descendant`, as
reported by the store's `is_ancestor` query (`none` when the query reports no
relation or fails). -/
def aDist (s : Store) (descendant cp : Hash) : Option Nat :=
  match is_ancestor s cp descendant with
  | .ok (some d) => some d
  | _ => none

/-- All stored depths fit in a `u64` (true of every store the Rust code can
see, where `depth` has type `u64`). -/
def depthsBounded (s : Store) : Bool :=
  s.all fun bi => decide (bi.depth < 2 ^ 64)

/-- The accumulator invariant of the `find_closest_ancestor` loop after the
checkpoints in `done` have been examined: either no candidate qualified yet,
or `anc` is the earliest checkpoint attaining the minimum distance `cf` seen
so far. -/
def AccInv (s : Store) (descendant : Hash) (done : List Hash)
    (anc : Option Hash) (cf : Nat) : Prop :=
  (anc = none → cf = 2 ^ 64 - 1 ∧ ∀ cp ∈ done, aDist s descendant cp = none) ∧
  (∀ a, anc = some a → aDist s descendant a = some cf ∧ cf < 2 ^ 64 - 1 ∧
     (∀ cp ∈ done, ∀ d', aDist s descendant cp = some d' → cf ≤ d') ∧
     ∃ pre post, done = pre ++ a :: post ∧
       ∀ cp ∈ pre, ∀ d', aDist s descendant cp = some d' → cf < d')

/-- A three-block chain (hashes 1, 2, 3 at depths 1, 2, 3) used as concrete
input for witnesses. -/
def chain3 : Store := [⟨1, 1, 0⟩, ⟨2, 2, 1⟩, ⟨3, 3, 2⟩]

/-- A two-block chain (genesis hash 1, child hash 2). -/
def chain2 : Store := [⟨1, 1, 0⟩, ⟨2, 2, 1⟩]

/-! ### Lemmas about the store primitives -/

theorem lookupInfo_hash {s : Store} {h : Hash} {bi : BlockInfo}
    (hl : lookupInfo s h = some bi) : bi.block_hash = h := by
  unfold lookupInfo at hl
  simpa using List.find?_some hl

theorem wf_good {s : Store} (hwf : wfB s = true) {h : Hash} {bi : BlockInfo}
    (hl : lookupInfo s h = some bi) : GoodEntry s bi := by
  have hmem : bi ∈ s := by
    unfold lookupInfo at hl
    exact List.mem_of_find?_eq_some hl
  unfold wfB at hwf
  have hb := List.all_eq_true.mp hwf bi hmem
  simp only [Bool.and_eq_true, beq_iff_eq, decide_eq_true_eq] at hb
  obtain ⟨⟨h1, h2⟩, h3⟩ := hb
  refine ⟨h1, h2, ?_⟩
  cases hp : lookupInfo s bi.parent with
  | some p =>
    left
    rw [hp] at h3
    simp only [beq_iff_eq] at h3
    exact ⟨p, rfl, h3⟩
  | none =>
    right
    rw [hp] at h3
    simp only [beq_iff_eq] at h3
    exact ⟨rfl, h3⟩

theorem get_block_info_ok {s : Store} {h : Hash} {bi : BlockInfo} :
    get_block_info s h = .ok bi ↔ lookupInfo s h = some bi := by
  unfold get_block_info
  cases hl : lookupInfo s h <;> simp

theorem get_block_info_error {s : Store} {h : Hash} {e : StorageError}
    (hh : get_block_info s h = .error e) : e = .BlockNotFound := by
  unfold get_block_info at hh
  cases hl : lookupInfo s h <;> rw [hl] at hh <;> simp_all

theorem get_block_ok {s : Store} {h : Hash} {bi : BlockInfo}
    (hl : lookupInfo s h = some bi) : get_block s h = .ok (blockOf bi, bi) := by
  unfold get_block
  rw [get_block_info_ok.mpr hl]
  rfl

theorem nth_succ_back (s : Store) (h : Hash) (n : Nat) :
    nthAncestorInfo s h (n+1) =
      match nthAncestorInfo s h n with
      | .error e => .error e
      | .ok bi => get_block_info s bi.parent := by
  induction n generalizing h with
  | zero =>
    cases hg : get_block_info s h <;> simp [nthAncestorInfo, hg]
  | succ n ih =>
    cases hg : get_block_info s h with
    | error e => simp [nthAncestorInfo, hg]
    | ok bi =>
      have h1 : nthAncestorInfo s h (n+1+1) = nthAncestorInfo s bi.parent (n+1) := by
        conv_lhs => rw [nthAncestorInfo]
        rw [hg]
      have h2 : nthAncestorInfo s h (n+1) = nthAncestorInfo s bi.parent n := by
        conv_lhs => rw [nthAncestorInfo]
        rw [hg]
      rw [h1, ih bi.parent, h2]

theorem nth_ok_head {s : Store} {h : Hash} {n : Nat} {r : BlockInfo}
    (hh : nthAncestorInfo s h n = .ok r) : ∃ bi, get_block_info s h = .ok bi := by
  cases n with
  | zero => exact ⟨r, hh⟩
  | succ n =>
    unfold nthAncestorInfo at hh
    cases hg : get_block_info s h with
    | error e => rw [hg] at hh; cases hh
    | ok bi => exact ⟨bi, rfl⟩

theorem nth_error {s : Store} {h : Hash} {n : Nat} {e : StorageError}
    (hh : nthAncestorInfo s h n = .error e) : e = .BlockNotFound := by
  induction n generalizing h with
  | zero => exact get_block_info_error hh
  | succ n ih =>
    unfold nthAncestorInfo at hh
    cases hg : get_block_info s h with
    | error e' =>
      rw [hg] at hh
      cases hh
      exact get_block_info_error hg
    | ok bi =>
      rw [hg] at hh
      exact ih hh

theorem nth_good {s : Store} (hwf : wfB s = true) :
    ∀ n h r, nthAncestorInfo s h n = .ok r →
      GoodEntry s r ∧ ∀ bi0, lookupInfo s h = some bi0 → r.depth + n = bi0.depth := by
  intro n
  induction n with
  | zero =>
    intro h r hh
    have hl : lookupInfo s h = some r := get_block_info_ok.mp hh
    refine ⟨wf_good hwf hl, ?_⟩
    intro bi0 hb0
    rw [hl] at hb0
    cases hb0
    rfl
  | succ n ih =>
    intro h r hh
    unfold nthAncestorInfo at hh
    cases hg : get_block_info s h with
    | error e => rw [hg] at hh; cases hh
    | ok bi =>
      rw [hg] at hh
      obtain ⟨hgood, hdep⟩ := ih bi.parent r hh
      refine ⟨hgood, ?_⟩
      intro bi0 hb0
      have hbi : lookupInfo s h = some bi := get_block_info_ok.mp hg
      rw [hbi] at hb0
      cases hb0
      obtain ⟨p, hp⟩ := nth_ok_head hh
      have hpl : lookupInfo s bi.parent = some p := get_block_info_ok.mp hp
      have hgbi := wf_good hwf hbi
      rcases hgbi.2.2 with ⟨p', hp', hpd⟩ | ⟨hnone, _⟩
      · have hdp := hdep p' hp'
        omega
      · rw [hnone] at hpl
        cases hpl

theorem nth_total {s : Store} (hwf : wfB s = true) :
    ∀ n h bi0, lookupInfo s h = some bi0 → n < bi0.depth →
      ∃ r, nthAncestorInfo s h n = .ok r := by
  intro n
  induction n with
  | zero =>
    intro h bi0 hl _
    exact ⟨bi0, get_block_info_ok.mpr hl⟩
  | succ n ih =>
    intro h bi0 hl hn
    have hgood := wf_good hwf hl
    rcases hgood.2.2 with ⟨p, hp, hpd⟩ | ⟨_, hd1⟩
    · obtain ⟨r, hr⟩ := ih bi0.parent p hp (by omega)
      refine ⟨r, ?_⟩
      unfold nthAncestorInfo
      rw [get_block_info_ok.mpr hl]
      exact hr
    · omega

theorem nth_add {s : Store} (hwf : wfB s = true) {a : Nat} {h : Hash} {bi : BlockInfo}
    (ha : nthAncestorInfo s h a = .ok bi) :
    ∀ b, nthAncestorInfo s h (a + b) = nthAncestorInfo s bi.block_hash b := by
  intro b
  induction b with
  | zero =>
    have hgood := (nth_good hwf a h bi ha).1
    show nthAncestorInfo s h a = nthAncestorInfo s bi.block_hash 0
    rw [ha]
    show _ = get_block_info s bi.block_hash
    rw [get_block_info_ok.mpr hgood.1]
  | succ b ih =>
    have : a + (b + 1) = (a + b) + 1 := rfl
    rw [this, nth_succ_back, nth_succ_back, ih]

theorem for_path_sound {s : Store} :
    ∀ (n : Nat) (h : Hash) (vs : List BlockInfo) (r : BlockInfo),
      for_path_to_nth_ancestor s h n = .ok (vs, r) →
      vs.length = n ∧
      (∀ i, (hi : i < vs.length) → nthAncestorInfo s h i = .ok (vs.get ⟨i, hi⟩)) ∧
      nthAncestorInfo s h n = .ok r := by
  intro n
  induction n with
  | zero =>
    intro h vs r hfp
    unfold for_path_to_nth_ancestor at hfp
    cases hg : get_block_info s h with
    | error e =>
      simp only [hg, Except.map] at hfp
      cases hfp
    | ok bi =>
      simp only [hg, Except.map] at hfp
      cases hfp
      exact ⟨rfl, fun i hi => absurd hi (by simp), hg⟩
  | succ n ih =>
    intro h vs r hfp
    unfold for_path_to_nth_ancestor at hfp
    cases hg : get_block_info s h with
    | error e =>
      simp only [hg] at hfp
      cases hfp
    | ok bi =>
      simp only [hg] at hfp
      cases hfp' : for_path_to_nth_ancestor s bi.parent n with
      | error e =>
        simp only [hfp'] at hfp
        cases hfp
      | ok vr =>
        obtain ⟨vs', r'⟩ := vr
        simp only [hfp'] at hfp
        cases hfp
        obtain ⟨hlen, hget, hend⟩ := ih bi.parent vs' _ hfp'
        refine ⟨by simp [hlen], ?_, ?_⟩
        · intro i hi
          cases i with
          | zero =>
            show nthAncestorInfo s h 0 = _
            exact hg
          | succ i =>
            have hi' : i < vs'.length := by simpa using hi
            have hstep : nthAncestorInfo s h (i+1) = nthAncestorInfo s bi.parent i := by
              conv_lhs => rw [nthAncestorInfo]
              rw [hg]
            rw [hstep]
            exact hget i hi'
        · have hstep : nthAncestorInfo s h (n+1) = nthAncestorInfo s bi.parent n := by
            conv_lhs => rw [nthAncestorInfo]
            rw [hg]
          rw [hstep]
          exact hend

theorem for_path_total {s : Store} :
    ∀ (n : Nat) (h : Hash) (r : BlockInfo), nthAncestorInfo s h n = .ok r →
      ∃ vs, for_path_to_nth_ancestor s h n = .ok (vs, r) := by
  intro n
  induction n with
  | zero =>
    intro h r hh
    refine ⟨[], ?_⟩
    have hg : get_block_info s h = .ok r := hh
    unfold for_path_to_nth_ancestor
    rw [hg]
    rfl
  | succ n ih =>
    intro h r hh
    unfold nthAncestorInfo at hh
    cases hg : get_block_info s h with
    | error e => rw [hg] at hh; cases hh
    | ok bi =>
      rw [hg] at hh
      obtain ⟨vs', hvs'⟩ := ih bi.parent r hh
      refine ⟨bi :: vs', ?_⟩
      unfold for_path_to_nth_ancestor
      simp only [hg, hvs']

theorem for_path_error {s : Store} :
    ∀ (n : Nat) (h : Hash) (e : StorageError),
      for_path_to_nth_ancestor s h n = .error e → e = .BlockNotFound := by
  intro n
  induction n with
  | zero =>
    intro h e hfp
    unfold for_path_to_nth_ancestor at hfp
    cases hg : get_block_info s h with
    | error e' =>
      simp only [hg, Except.map] at hfp
      cases hfp
      exact get_block_info_error hg
    | ok bi =>
      simp only [hg, Except.map] at hfp
      cases hfp
  | succ n ih =>
    intro h e hfp
    unfold for_path_to_nth_ancestor at hfp
    cases hg : get_block_info s h with
    | error e' =>
      simp only [hg] at hfp
      cases hfp
      exact get_block_info_error hg
    | ok bi =>
      simp only [hg] at hfp
      cases hfp' : for_path_to_nth_ancestor s bi.parent n with
      | error e' =>
        simp only [hfp'] at hfp
        cases hfp
        exact ih bi.parent _ hfp'
      | ok vr =>
        obtain ⟨vs', r'⟩ := vr
        simp only [hfp'] at hfp
        cases hfp

/-! ### Lemmas about the Ancestor Walk State -/

theorem has_next_true {st : BlockIterState} (h : st.cur_depth < st.to_depth) :
    st.has_next = true := by
  unfold BlockIterState.has_next
  exact decide_eq_true h

theorem get_next_eq_pop {s : Store} {st : BlockIterState} {top : BlockInfo}
    {rest : List BlockInfo} (hhn : st.has_next = true)
    (hstack : st.pending_infos = top :: rest) (heq : top.depth = st.cur_depth + 1) :
    st.get_next s =
      match get_block s top.block_hash with
      | .error e => .error (.storage e)
      | .ok (block, _) => .ok (block, ⟨st.to_depth, st.cur_depth + 1, rest⟩) := by
  unfold BlockIterState.get_next
  rw [hstack, hhn]
  simp only [if_true, heq]

theorem get_next_eq_walk {s : Store} {st : BlockIterState} {top : BlockInfo}
    {rest : List BlockInfo} (hhn : st.has_next = true)
    (hstack : st.pending_infos = top :: rest)
    (hne : ¬ top.depth = st.cur_depth + 1) (hlt : st.cur_depth + 1 < top.depth) :
    st.get_next s =
      match for_path_to_nth_ancestor s top.parent (top.depth - (st.cur_depth + 1) - 1) with
      | .error e => .error (.storage e)
      | .ok (visited, bi) =>
        match get_block s bi.block_hash with
        | .error e => .error (.storage e)
        | .ok (block, _) =>
          .ok (block, ⟨st.to_depth, st.cur_depth + 1, visited.reverse ++ top :: rest⟩) := by
  unfold BlockIterState.get_next
  rw [hstack, hhn]
  simp only [if_true, if_neg hne, if_pos hlt, BlockInfo.parent_id]

theorem get_next_ok {s : Store} {t : Hash} (hwf : wfB s = true)
    {st : BlockIterState} (hinv : IterInv s t st)
    (hnext : st.cur_depth < st.to_depth) :
    ∃ bi st', nthAncestorInfo s t (st.to_depth - (st.cur_depth + 1)) = .ok bi ∧
      st.get_next s = .ok (blockOf bi, st') ∧
      st'.to_depth = st.to_depth ∧ st'.cur_depth = st.cur_depth + 1 ∧
      IterInv s t st' := by
  obtain ⟨hent, hpw, hne3, hlast⟩ := hinv
  obtain ⟨hne1, hgt⟩ := hne3 hnext
  obtain ⟨top, rest, hstack⟩ : ∃ top rest, st.pending_infos = top :: rest := by
    cases hp : st.pending_infos with
    | nil => exact absurd hp hne1
    | cons a l => exact ⟨a, l, rfl⟩
  have htopmem : top ∈ st.pending_infos := by
    rw [hstack]; exact List.mem_cons_self _ _
  obtain ⟨htopnth, htople, _⟩ := hent top htopmem
  have htoplt : st.cur_depth < top.depth := hgt top htopmem
  have hhn := has_next_true hnext
  have htopgood : GoodEntry s top := (nth_good hwf _ t top htopnth).1
  rw [hstack] at hpw
  have hpw' := List.pairwise_cons.mp hpw
  by_cases heq : top.depth = st.cur_depth + 1
  · refine ⟨top, ⟨st.to_depth, st.cur_depth + 1, rest⟩, ?_, ?_, rfl, rfl, ?_, ?_, ?_, ?_⟩
    · have harith : st.to_depth - (st.cur_depth + 1) = st.to_depth - top.depth := by omega
      rw [harith]
      exact htopnth
    · rw [get_next_eq_pop hhn hstack heq, get_block_ok htopgood.1]
    · intro bi hbi
      dsimp only at hbi ⊢
      have hmem : bi ∈ st.pending_infos := by
        rw [hstack]; exact List.mem_cons_of_mem _ hbi
      obtain ⟨h1, h2, _⟩ := hent bi hmem
      have hlo := hpw'.1 bi hbi
      exact ⟨h1, h2, by omega⟩
    · exact hpw'.2
    · intro hlt'
      dsimp only at hlt' ⊢
      constructor
      · intro hrestnil
        subst hrestnil
        have hl : st.pending_infos.getLast? = some top := by rw [hstack]; rfl
        have := hlast top hl
        omega
      · intro bi hbi
        have := hpw'.1 bi hbi
        omega
    · intro b hb
      dsimp only at hb ⊢
      cases hrest : rest with
      | nil =>
        rw [hrest] at hb
        simp at hb
      | cons x l =>
        apply hlast
        rw [hstack, hrest, List.getLast?_cons_cons]
        rw [hrest] at hb
        exact hb
  · have hlt : st.cur_depth + 1 < top.depth := by omega
    obtain ⟨p, hpl, hpd⟩ : ∃ p, lookupInfo s top.parent = some p ∧ p.depth + 1 = top.depth := by
      rcases htopgood.2.2 with hp | ⟨_, h1⟩
      · exact hp
      · omega
    have hpgood : GoodEntry s p := wf_good hwf hpl
    have hphash : p.block_hash = top.parent := lookupInfo_hash hpl
    have hk : top.depth + (st.to_depth - top.depth) = st.to_depth := by omega
    have hnthp : nthAncestorInfo s t (st.to_depth - top.depth + 1) = .ok p := by
      rw [nth_succ_back, htopnth]
      show get_block_info s top.parent = .ok p
      exact get_block_info_ok.mpr hpl
    obtain ⟨r, hr⟩ := nth_total hwf (top.depth - (st.cur_depth + 1) - 1) p.block_hash p
      hpgood.1 (by omega)
    have hrtop : nthAncestorInfo s top.parent (top.depth - (st.cur_depth + 1) - 1) = .ok r := by
      rw [← hphash]; exact hr
    obtain ⟨vs, hvs⟩ := for_path_total _ top.parent r hrtop
    obtain ⟨hvslen, hvsget, _⟩ := for_path_sound _ top.parent vs r hvs
    have hrgood : GoodEntry s r := (nth_good hwf _ p.block_hash r hr).1
    have hrdep : r.depth + (top.depth - (st.cur_depth + 1) - 1) = p.depth :=
      (nth_good hwf _ p.block_hash r hr).2 p hpgood.1
    have hvsfacts : ∀ i, (hi : i < vs.length) →
        nthAncestorInfo s t (st.to_depth - top.depth + 1 + i) = .ok (vs.get ⟨i, hi⟩) ∧
        (vs.get ⟨i, hi⟩).depth + i = p.depth ∧ GoodEntry s (vs.get ⟨i, hi⟩) := by
      intro i hi
      have hgi : nthAncestorInfo s top.parent i = .ok (vs.get ⟨i, hi⟩) := hvsget i hi
      have hgi' : nthAncestorInfo s p.block_hash i = .ok (vs.get ⟨i, hi⟩) := by
        rw [hphash]; exact hgi
      refine ⟨?_, ?_, ?_⟩
      · rw [nth_add hwf hnthp i]
        exact hgi'
      · exact (nth_good hwf _ p.block_hash _ hgi').2 p hpgood.1
      · exact (nth_good hwf _ p.block_hash _ hgi').1
    refine ⟨r, ⟨st.to_depth, st.cur_depth + 1, vs.reverse ++ top :: rest⟩, ?_, ?_, rfl, rfl,
      ?_, ?_, ?_, ?_⟩
    · have harith : st.to_depth - (st.cur_depth + 1) =
          st.to_depth - top.depth + 1 + (top.depth - (st.cur_depth + 1) - 1) := by omega
      rw [harith, nth_add hwf hnthp]
      exact hr
    · rw [get_next_eq_walk hhn hstack heq hlt]
      simp only [hvs, get_block_ok hrgood.1]
    · intro bi hbi
      dsimp only at hbi ⊢
      rcases List.mem_append.mp hbi with hl | hr2
      · have hvmem : bi ∈ vs := List.mem_reverse.mp hl
        obtain ⟨⟨i, hi⟩, hget⟩ := List.mem_iff_get.mp hvmem
        obtain ⟨hbn, hbd, _⟩ := hvsfacts i hi
        rw [hget] at hbn hbd
        have hi' : i < top.depth - (st.cur_depth + 1) - 1 := by rw [← hvslen]; exact hi
        refine ⟨?_, by omega, by omega⟩
        have harith : st.to_depth - bi.depth = st.to_depth - top.depth + 1 + i := by omega
        rw [harith]
        exact hbn
      · have hmem : bi ∈ st.pending_infos := by rw [hstack]; exact hr2
        obtain ⟨h1, h2, _⟩ := hent bi hmem
        rcases List.mem_cons.mp hr2 with hbtop | hbrest
        · subst hbtop
          exact ⟨h1, h2, by omega⟩
        · have := hpw'.1 bi hbrest
          exact ⟨h1, h2, by omega⟩
    · dsimp only
      rw [List.pairwise_append]
      refine ⟨?_, hpw, ?_⟩
      · rw [List.pairwise_reverse, List.pairwise_iff_get]
        intro i j hij
        obtain ⟨_, hdi, _⟩ := hvsfacts i.1 i.2
        obtain ⟨_, hdj, _⟩ := hvsfacts j.1 j.2
        have hgieq : vs.get i = vs.get ⟨i.1, i.2⟩ := rfl
        have hgjeq : vs.get j = vs.get ⟨j.1, j.2⟩ := rfl
        rw [hgieq, hgjeq]
        have hijn : i.1 < j.1 := hij
        omega
      · intro a ha b hb
        have hamem : a ∈ vs := List.mem_reverse.mp ha
        obtain ⟨⟨i, hi⟩, hget⟩ := List.mem_iff_get.mp hamem
        obtain ⟨_, hda, _⟩ := hvsfacts i hi
        rw [hget] at hda
        rcases List.mem_cons.mp hb with hbtop | hbrest
        · subst hbtop
          omega
        · have := hpw'.1 b hbrest
          omega
    · intro hlt'
      dsimp only at hlt' ⊢
      refine ⟨by simp, ?_⟩
      intro bi hbi
      rcases List.mem_append.mp hbi with hl | hr2
      · have hvmem : bi ∈ vs := List.mem_reverse.mp hl
        obtain ⟨⟨i, hi⟩, hget⟩ := List.mem_iff_get.mp hvmem
        obtain ⟨_, hbd, _⟩ := hvsfacts i hi
        rw [hget] at hbd
        have hi' : i < top.depth - (st.cur_depth + 1) - 1 := by rw [← hvslen]; exact hi
        omega
      · rcases List.mem_cons.mp hr2 with hbtop | hbrest
        · subst hbtop
          omega
        · have := hpw'.1 bi hbrest
          omega
    · intro b hb
      dsimp only at hb ⊢
      rw [List.getLast?_append] at hb
      apply hlast
      rw [hstack]
      cases hx : (top :: rest).getLast? with
      | none =>
        cases hrest : rest with
        | nil => rw [hrest] at hx; simp at hx
        | cons x l => rw [hrest, List.getLast?_cons_cons] at hx; simp [List.getLast?_eq_none_iff] at hx
      | some y =>
        rw [hx] at hb
        simp only [Option.or_some] at hb
        exact hb

theorem runIter_spec {s : Store} {t : Hash} (hwf : wfB s = true) :
    ∀ (n : Nat) (st : BlockIterState), IterInv s t st → n + st.cur_depth = st.to_depth →
      ∃ blocks, runIter s n st = .ok blocks ∧ blocks.length = n ∧
        ∀ i, (hi : i < blocks.length) → ∃ bi,
          nthAncestorInfo s t (n - 1 - i) = .ok bi ∧ blocks.get ⟨i, hi⟩ = blockOf bi := by
  intro n
  induction n with
  | zero =>
    intro st _ _
    exact ⟨[], rfl, rfl, fun i hi => absurd hi (by simp)⟩
  | succ n ih =>
    intro st hinv hn
    have hnext : st.cur_depth < st.to_depth := by omega
    obtain ⟨bi, st', hnth, hok, hto', hcur', hinv'⟩ := get_next_ok hwf hinv hnext
    obtain ⟨blocks', hrun', hlen', hget'⟩ := ih st' hinv' (by omega)
    have hhn := has_next_true hnext
    have hrun : runIter s (n+1) st = .ok (blockOf bi :: blocks') := by
      unfold runIter
      rw [hhn]
      simp only [if_true, hok, hrun']
    refine ⟨blockOf bi :: blocks', hrun, by simp [hlen'], ?_⟩
    intro i hi
    cases i with
    | zero =>
      refine ⟨bi, ?_, rfl⟩
      have harith : n + 1 - 1 - 0 = st.to_depth - (st.cur_depth + 1) := by omega
      rw [harith]
      exact hnth
    | succ i =>
      have hi' : i < blocks'.length := by simpa using hi
      obtain ⟨bi', h1, h2⟩ := hget' i hi'
      refine ⟨bi', ?_, ?_⟩
      · have harith : n + 1 - 1 - (i + 1) = n - 1 - i := by omega
        rw [harith]
        exact h1
      · simpa using h2

theorem get_block_error {s : Store} {h : Hash} {e : StorageError}
    (hh : get_block s h = .error e) : e = .BlockNotFound := by
  unfold get_block at hh
  cases hg : get_block_info s h with
  | error e' =>
    simp only [hg, Except.map] at hh
    cases hh
    exact get_block_info_error hg
  | ok bi =>
    simp only [hg, Except.map] at hh
    cases hh

theorem get_next_error {s : Store} {st : BlockIterState} {e : IterError}
    (hh : st.get_next s = .error e) :
    e = .panicked ∨ e = .storage .BlockNotFound := by
  unfold BlockIterState.get_next at hh
  split at hh
  · split at hh
    · cases hh
      exact Or.inl rfl
    · next block_info rest heq1 =>
      dsimp only at hh
      by_cases hd : block_info.depth = st.cur_depth + 1
      · rw [if_pos hd] at hh
        cases hgb : get_block s block_info.block_hash with
        | error e' =>
          simp only [hgb] at hh
          cases hh
          exact Or.inr (by rw [get_block_error hgb])
        | ok v =>
          obtain ⟨b, bi2⟩ := v
          simp only [hgb] at hh
          cases hh
      · rw [if_neg hd] at hh
        by_cases hlt : st.cur_depth + 1 < block_info.depth
        · rw [if_pos hlt] at hh
          cases hfp : for_path_to_nth_ancestor s block_info.parent_id
              (block_info.depth - (st.cur_depth + 1) - 1) with
          | error e' =>
            simp only [hfp] at hh
            cases hh
            exact Or.inr (by rw [for_path_error _ _ _ hfp])
          | ok v =>
            obtain ⟨visited, bi2⟩ := v
            simp only [hfp] at hh
            cases hgb : get_block s bi2.block_hash with
            | error e' =>
              simp only [hgb] at hh
              cases hh
              exact Or.inr (by rw [get_block_error hgb])
            | ok v2 =>
              obtain ⟨b, bi3⟩ := v2
              simp only [hgb] at hh
              cases hh
        · rw [if_neg hlt] at hh
          cases hh
          exact Or.inl rfl
  · cases hh
    exact Or.inl rfl

theorem runIter_error {s : Store} :
    ∀ (n : Nat) (st : BlockIterState) (e : IterError), runIter s n st = .error e →
      e = .panicked ∨ e = .storage .BlockNotFound := by
  intro n
  induction n with
  | zero =>
    intro st e h
    cases h
  | succ n ih =>
    intro st e h
    unfold runIter at h
    split at h
    · split at h
      · next e' heq =>
        cases h
        exact get_next_error heq
      · next b st' heq =>
        split at h
        · next e' heq2 =>
          cases h
          exact ih st' e heq2
        · cases h
    · cases h

theorem is_ancestor_of_isAncestorAt {s : Store} {f t : Hash} {d : Nat}
    (hwf : wfB s = true) (ha : IsAncestorAt s f t d) :
    is_ancestor s f t = .ok (some d) ∧
    ∃ fi ti, lookupInfo s f = some fi ∧ lookupInfo s t = some ti ∧
      fi.depth + d = ti.depth := by
  obtain ⟨bi, hnth, hhash⟩ := ha
  obtain ⟨ti, hti⟩ := nth_ok_head hnth
  have htl : lookupInfo s t = some ti := get_block_info_ok.mp hti
  have hgood : GoodEntry s bi := (nth_good hwf d t bi hnth).1
  have hdep : bi.depth + d = ti.depth := (nth_good hwf d t bi hnth).2 ti htl
  have hfl : lookupInfo s f = some bi := by rw [← hhash]; exact hgood.1
  have hfok : get_block_info s f = .ok bi := get_block_info_ok.mpr hfl
  refine ⟨?_, bi, ti, hfl, htl, hdep⟩
  unfold is_ancestor
  have hle : bi.depth ≤ ti.depth := by omega
  have hidx : ti.depth - bi.depth = d := by omega
  simp only [hfok, hti, if_pos hle, hidx, hnth, if_pos hhash]

theorem is_ancestor_none_of_not {s : Store} {f t : Hash} {fi ti : BlockInfo}
    (hf : lookupInfo s f = some fi) (ht : lookupInfo s t = some ti)
    (hno : ∀ d, ¬ IsAncestorAt s f t d) :
    is_ancestor s f t = .ok none := by
  unfold is_ancestor
  simp only [get_block_info_ok.mpr hf, get_block_info_ok.mpr ht]
  by_cases hle : fi.depth ≤ ti.depth
  · rw [if_pos hle]
    cases hnth : nthAncestorInfo s t (ti.depth - fi.depth) with
    | error e => rfl
    | ok ai =>
      have hne : ¬ ai.block_hash = f := by
        intro hcontra
        exact hno (ti.depth - fi.depth) ⟨ai, hnth, hcontra⟩
      simp [hne]
  · rw [if_neg hle]

theorem is_ancestor_error {s : Store} {f t : Hash} {e : StorageError}
    (hh : is_ancestor s f t = .error e) :
    e = .BlockNotFound ∧ (lookupInfo s f = none ∨ lookupInfo s t = none) := by
  unfold is_ancestor at hh
  cases hgf : get_block_info s f with
  | error e' =>
    rw [hgf] at hh
    cases hh
    refine ⟨get_block_info_error hgf, Or.inl ?_⟩
    unfold get_block_info at hgf
    cases hl : lookupInfo s f <;> rw [hl] at hgf <;> simp_all
  | ok fi =>
    simp only [hgf] at hh
    cases hgt : get_block_info s t with
    | error e' =>
      rw [hgt] at hh
      cases hh
      refine ⟨get_block_info_error hgt, Or.inr ?_⟩
      unfold get_block_info at hgt
      cases hl : lookupInfo s t <;> rw [hl] at hgt <;> simp_all
    | ok ti =>
      simp only [hgt] at hh
      by_cases hle : fi.depth ≤ ti.depth
      · rw [if_pos hle] at hh
        cases hnth : nthAncestorInfo s t (ti.depth - fi.depth) with
        | error e2 => rw [hnth] at hh; cases hh
        | ok ai =>
          simp only [hnth] at hh
          cases hh
      · rw [if_neg hle] at hh
        cases hh

theorem is_ancestor_notfound_of_missing {s : Store} {f t : Hash}
    (hmiss : lookupInfo s f = none ∨ lookupInfo s t = none) :
    is_ancestor s f t = .error .BlockNotFound := by
  unfold is_ancestor
  cases hgf : get_block_info s f with
  | error e =>
    have he := get_block_info_error hgf
    subst he
    rfl
  | ok fi =>
    have hf : lookupInfo s f = some fi := get_block_info_ok.mp hgf
    have ht : lookupInfo s t = none := by
      rcases hmiss with h | h
      · rw [h] at hf; cases hf
      · exact h
    have hgt : get_block_info s t = .error .BlockNotFound := by
      unfold get_block_info
      rw [ht]
    simp only [hgt]

theorem depthOf_of_lookup {s : Store} {h : Hash} {bi : BlockInfo}
    (hl : lookupInfo s h = some bi) : depthOf s h = bi.depth := by
  unfold depthOf
  rw [hl]

theorem depth_bounded_of_lookup {s : Store} (hb : depthsBounded s = true) {h : Hash}
    {bi : BlockInfo} (hl : lookupInfo s h = some bi) : bi.depth < 2 ^ 64 := by
  have hmem : bi ∈ s := by
    unfold lookupInfo at hl
    exact List.mem_of_find?_eq_some hl
  unfold depthsBounded at hb
  have := List.all_eq_true.mp hb bi hmem
  simpa using this

theorem iterInv_new {s : Store} {t : Hash} {ti : BlockInfo}
    (ht : lookupInfo s t = some ti) (d : Nat) :
    IterInv s t (BlockIterState.new ti d) := by
  unfold BlockIterState.new IterInv
  dsimp only
  refine ⟨?_, ?_, ?_, ?_⟩
  · intro bi hbi
    have hbe : bi = ti := by simpa using hbi
    subst hbe
    refine ⟨?_, le_refl _, Nat.sub_le _ _⟩
    rw [Nat.sub_self]
    exact get_block_info_ok.mpr ht
  · simp
  · intro hlt
    refine ⟨by simp, ?_⟩
    intro bi hbi
    have hbe : bi = ti := by simpa using hbi
    subst hbe
    exact hlt
  · intro b hb
    have hbe : ti = b := by simpa [List.getLast?] using hb
    subst hbe
    rfl

theorem get_next_ok_has_next {s : Store} {st : BlockIterState} {b : Block}
    {st' : BlockIterState} (h : st.get_next s = .ok (b, st')) :
    st.cur_depth < st.to_depth := by
  unfold BlockIterState.get_next at h
  split at h
  · next hhn =>
    unfold BlockIterState.has_next at hhn
    exact of_decide_eq_true hhn
  · cases h

theorem not_ancestor_of_deeper {s : Store} {f t : Hash} {fi ti : BlockInfo}
    (hwf : wfB s = true) (hf : lookupInfo s f = some fi) (ht : lookupInfo s t = some ti)
    (hgt : ti.depth < fi.depth) : ∀ d, ¬ IsAncestorAt s f t d := by
  intro d hd
  obtain ⟨bi, hnth, hhash⟩ := hd
  have hgood := nth_good hwf d t bi hnth
  have hbl : lookupInfo s f = some bi := by rw [← hhash]; exact hgood.1.1
  rw [hf] at hbl
  cases hbl
  have := hgood.2 ti ht
  omega

/-! ### Lemmas about the reverse stream -/

theorem poll_finished {s : Store} {st : BlockStreamReversed} (h : st.finished = true) :
    st.poll s = .ok (none, st) := by
  unfold BlockStreamReversed.poll
  rw [h]
  simp

theorem poll_none_deep {s : Store} {h : Hash} {bi : BlockInfo}
    (hl : lookupInfo s h = some bi) (hd : 1 < bi.depth) :
    BlockStreamReversed.poll ⟨h, none, false⟩ s =
      .ok (some (blockOf bi), ⟨bi.parent, none, false⟩) := by
  unfold BlockStreamReversed.poll
  simp only [get_block_ok hl]
  rw [if_pos hd]
  rfl

theorem poll_none_genesis {s : Store} {h : Hash} {bi : BlockInfo}
    (hl : lookupInfo s h = some bi) (hd : bi.depth = 1) :
    BlockStreamReversed.poll ⟨h, none, false⟩ s =
      .ok (some (blockOf bi), ⟨h, none, true⟩) := by
  unfold BlockStreamReversed.poll
  simp only [get_block_ok hl]
  rw [if_neg (by omega : ¬ 1 < bi.depth)]
  rfl

theorem runReverse_to_genesis {s : Store} (hwf : wfB s = true) :
    ∀ (n : Nat) (h : Hash) (bi : BlockInfo), lookupInfo s h = some bi → bi.depth = n + 1 →
      ∃ blocks stf, runReverse s (n + 2) ⟨h, none, false⟩ = .ok (blocks, stf) ∧
        blocks.length = n + 1 ∧
        (∀ i, (hi : i < blocks.length) → ∃ ebi,
           lookupInfo s ((blocks.get ⟨i, hi⟩).hash) = some ebi ∧ ebi.depth + i = n + 1) ∧
        stf.finished = true := by
  intro n
  induction n with
  | zero =>
    intro h bi hl hd
    have hpoll := poll_none_genesis hl hd
    have hrun : runReverse s 2 ⟨h, none, false⟩ = .ok ([blockOf bi], ⟨h, none, true⟩) := by
      have h2 : runReverse s 1 (⟨h, none, true⟩ : BlockStreamReversed) =
          .ok ([], ⟨h, none, true⟩) := by
        unfold runReverse
        simp only [@poll_finished s ⟨h, none, true⟩ rfl]
      unfold runReverse
      simp only [hpoll, h2]
    refine ⟨[blockOf bi], ⟨h, none, true⟩, hrun, rfl, ?_, rfl⟩
    intro i hi
    have hi0 : i = 0 := by simpa using hi
    subst hi0
    refine ⟨bi, ?_, by omega⟩
    show lookupInfo s (blockOf bi).hash = some bi
    have hgood := wf_good hwf hl
    exact hgood.1
  | succ n ih =>
    intro h bi hl hd
    have hgood := wf_good hwf hl
    obtain ⟨p, hp, hpd⟩ : ∃ p, lookupInfo s bi.parent = some p ∧ p.depth + 1 = bi.depth := by
      rcases hgood.2.2 with hp | ⟨_, h1⟩
      · exact hp
      · omega
    have hpoll := poll_none_deep hl (by omega)
    obtain ⟨blocks', stf, hrun', hlen', hget', hfin⟩ := ih bi.parent p hp (by omega)
    have hrun : runReverse s (n + 3) ⟨h, none, false⟩ =
        .ok (blockOf bi :: blocks', stf) := by
      show runReverse s ((n + 2) + 1) ⟨h, none, false⟩ = _
      unfold runReverse
      simp only [hpoll, hrun']
    refine ⟨blockOf bi :: blocks', stf, hrun, by simp [hlen'], ?_, hfin⟩
    intro i hi
    cases i with
    | zero =>
      refine ⟨bi, ?_, by omega⟩
      show lookupInfo s (blockOf bi).hash = some bi
      exact hgood.1
    | succ i =>
      have hi' : i < blocks'.length := by simpa using hi
      obtain ⟨ebi, h1, h2⟩ := hget' i hi'
      exact ⟨ebi, by simpa using h1, by omega⟩

/-! ### Lemmas about the closest-ancestor resolver -/

theorem aDist_some_iff {s : Store} {descendant cp : Hash} {d : Nat} :
    aDist s descendant cp = some d ↔ is_ancestor s cp descendant = .ok (some d) := by
  unfold aDist
  cases hia : is_ancestor s cp descendant with
  | error e => simp
  | ok o =>
    cases o with
    | none => simp
    | some d' => simp

theorem dist_bound {s : Store} {descendant cp : Hash} {dist : Nat}
    (hwf : wfB s = true) (hbound : depthsBounded s = true)
    (h : is_ancestor s cp descendant = .ok (some dist)) : dist < 2 ^ 64 - 1 := by
  unfold is_ancestor at h
  cases hgf : get_block_info s cp with
  | error e => rw [hgf] at h; cases h
  | ok fi =>
    simp only [hgf] at h
    cases hgt : get_block_info s descendant with
    | error e => rw [hgt] at h; cases h
    | ok ti =>
      simp only [hgt] at h
      by_cases hle : fi.depth ≤ ti.depth
      · rw [if_pos hle] at h
        cases hnth : nthAncestorInfo s descendant (ti.depth - fi.depth) with
        | error e => rw [hnth] at h; cases h
        | ok ai =>
          simp only [hnth] at h
          by_cases hha : ai.block_hash = cp
          · rw [if_pos hha] at h
            cases h
            have hfl : lookupInfo s cp = some fi := get_block_info_ok.mp hgf
            have htl : lookupInfo s descendant = some ti := get_block_info_ok.mp hgt
            have h1 : 1 ≤ fi.depth := (wf_good hwf hfl).2.1
            have h2 : ti.depth < 2 ^ 64 := depth_bounded_of_lookup hbound htl
            omega
          · rw [if_neg hha] at h
            cases h
      · rw [if_neg hle] at h
        cases h

theorem accInv_skip {s : Store} {descendant : Hash} {done : List Hash}
    {anc : Option Hash} {cf : Nat} {cp : Hash}
    (hinv : AccInv s descendant done anc cf)
    (hnone : aDist s descendant cp = none) :
    AccInv s descendant (done ++ [cp]) anc cf := by
  obtain ⟨h1, h2⟩ := hinv
  constructor
  · intro hanc
    obtain ⟨hcf, hall⟩ := h1 hanc
    refine ⟨hcf, ?_⟩
    intro cp' hcp'
    rcases List.mem_append.mp hcp' with hin | hin
    · exact hall cp' hin
    · have : cp' = cp := by simpa using hin
      subst this
      exact hnone
  · intro a hanc
    obtain ⟨ha1, ha2, ha3, pre, post, hsplit, hpre⟩ := h2 a hanc
    refine ⟨ha1, ha2, ?_, pre, post ++ [cp], by rw [hsplit]; simp, hpre⟩
    intro cp' hcp' d' hd'
    rcases List.mem_append.mp hcp' with hin | hin
    · exact ha3 cp' hin d' hd'
    · have : cp' = cp := by simpa using hin
      subst this
      rw [hnone] at hd'
      cases hd'

theorem go_spec {s : Store} {descendant : Hash}
    (hwf : wfB s = true) (hbound : depthsBounded s = true) :
    ∀ (cps done : List Hash) (anc : Option Hash) (cf : Nat),
      AccInv s descendant done anc cf →
      ∃ anc' cf', find_closest_ancestor_go s descendant cps anc cf = .ok (anc', cf') ∧
        AccInv s descendant (done ++ cps) anc' cf' := by
  intro cps
  induction cps with
  | nil =>
    intro done anc cf hinv
    exact ⟨anc, cf, rfl, by simpa using hinv⟩
  | cons cp rest ih =>
    intro done anc cf hinv
    have hassoc : done ++ cp :: rest = (done ++ [cp]) ++ rest := by simp
    rw [hassoc]
    cases hia : is_ancestor s cp descendant with
    | error e =>
      have he := (is_ancestor_error hia).1
      subst he
      have hnone : aDist s descendant cp = none := by
        unfold aDist
        rw [hia]
      have hred : find_closest_ancestor_go s descendant (cp :: rest) anc cf =
          find_closest_ancestor_go s descendant rest anc cf := by
        conv_lhs => rw [find_closest_ancestor_go]
        simp only [hia]
      rw [hred]
      exact ih (done ++ [cp]) anc cf (accInv_skip hinv hnone)
    | ok o =>
      cases o with
      | none =>
        have hnone : aDist s descendant cp = none := by
          unfold aDist
          rw [hia]
        have hred : find_closest_ancestor_go s descendant (cp :: rest) anc cf =
            find_closest_ancestor_go s descendant rest anc cf := by
          conv_lhs => rw [find_closest_ancestor_go]
          simp only [hia]
        rw [hred]
        exact ih (done ++ [cp]) anc cf (accInv_skip hinv hnone)
      | some dist =>
        have hsome : aDist s descendant cp = some dist := aDist_some_iff.mpr hia
        have hdb : dist < 2 ^ 64 - 1 := dist_bound hwf hbound hia
        by_cases hcmp : cf > dist
        · have hred : find_closest_ancestor_go s descendant (cp :: rest) anc cf =
              find_closest_ancestor_go s descendant rest (some cp) dist := by
            conv_lhs => rw [find_closest_ancestor_go]
            simp only [hia, if_pos hcmp]
          rw [hred]
          refine ih (done ++ [cp]) (some cp) dist ?_
          constructor
          · intro hcontra
            cases hcontra
          · intro a ha
            have haeq : cp = a := by
              injection ha with ha2
            subst haeq
            refine ⟨hsome, hdb, ?_, done, [], rfl, ?_⟩
            · intro cp' hcp' d' hd'
              rcases List.mem_append.mp hcp' with hin | hin
              · rcases hanc : anc with _ | a0
                · obtain ⟨_, hall⟩ := hinv.1 hanc
                  rw [hall cp' hin] at hd'
                  cases hd'
                · obtain ⟨_, _, ha3, _⟩ := hinv.2 a0 hanc
                  have := ha3 cp' hin d' hd'
                  omega
              · have : cp' = cp := by simpa using hin
                subst this
                rw [hsome] at hd'
                cases hd'
                omega
            · intro cp' hcp' d' hd'
              rcases hanc : anc with _ | a0
              · obtain ⟨_, hall⟩ := hinv.1 hanc
                rw [hall cp' hcp'] at hd'
                cases hd'
              · obtain ⟨_, _, ha3, _⟩ := hinv.2 a0 hanc
                have := ha3 cp' hcp' d' hd'
                omega
        · have hred : find_closest_ancestor_go s descendant (cp :: rest) anc cf =
              find_closest_ancestor_go s descendant rest anc cf := by
            conv_lhs => rw [find_closest_ancestor_go]
            simp only [hia, if_neg hcmp]
          rw [hred]
          refine ih (done ++ [cp]) anc cf ?_
          -- the accumulator must already hold a candidate
          rcases hanc : anc with _ | a0
          · obtain ⟨hcf, _⟩ := hinv.1 hanc
            omega
          · obtain ⟨ha1, ha2, ha3, pre, post, hsplit, hpre⟩ := hinv.2 a0 hanc
            constructor
            · intro hcontra
              cases hcontra
            · intro a ha
              have haeq : a0 = a := by injection ha with h2
              subst haeq
              refine ⟨ha1, ha2, ?_, pre, post ++ [cp], by rw [hsplit]; simp, hpre⟩
              intro cp' hcp' d' hd'
              rcases List.mem_append.mp hcp' with hin | hin
              · exact ha3 cp' hin d' hd'
              · have : cp' = cp := by simpa using hin
                subst this
                rw [hsome] at hd'
                cases hd'
                omega

/-! ### Claim theorems -/

/-- C1: For every pair `(from, to)` where `from` is an ancestor of `to` at
ancestor distance `d` (in a well-formed store), the stream returned by
`stream_from_to` yields exactly `d` blocks, each successive block having depth
one greater than the previous, and the last block yielded is the block at
hash `to`. -/
theorem C1_stream_from_to_yields_ancestor_chain
    (s : Store) (f t : Hash) (d : Nat)
    (hwf : wfB s = true) (ha : IsAncestorAt s f t d) :
    ∃ st blocks, stream_from_to s f t = .ok st ∧ streamList s st = .ok blocks ∧
      blocks.length = d ∧
      (∀ i, (hi : i + 1 < blocks.length) →
        depthOf s ((blocks.get ⟨i + 1, hi⟩).hash) =
          depthOf s ((blocks.get ⟨i, by omega⟩).hash) + 1) ∧
      (∀ hlast : d - 1 < blocks.length, (blocks.get ⟨d - 1, hlast⟩).hash = t) := by
  obtain ⟨hia, fi, ti, hfl, htl, hdep⟩ := is_ancestor_of_isAncestorAt hwf ha
  have hfgood := wf_good hwf hfl
  have hd : d < ti.depth := by
    have := hfgood.2.1
    omega
  have hstream : stream_from_to s f t = .ok (BlockIterState.new ti d) := by
    unfold stream_from_to
    simp only [hia, get_block_info_ok.mpr htl]
  have hinv := iterInv_new htl d
  have hn : (BlockIterState.new ti d).to_depth - (BlockIterState.new ti d).cur_depth = d := by
    unfold BlockIterState.new
    dsimp only
    omega
  obtain ⟨blocks, hrun, hlen, hget⟩ :=
    runIter_spec hwf ((BlockIterState.new ti d).to_depth - (BlockIterState.new ti d).cur_depth)
      (BlockIterState.new ti d) hinv (by unfold BlockIterState.new; dsimp only; omega)
  rw [hn] at hrun hlen hget
  refine ⟨BlockIterState.new ti d, blocks, hstream,
    by unfold streamList; rw [hn]; exact hrun, hlen, ?_, ?_⟩
  · intro i hi
    obtain ⟨bi0, hb0, he0⟩ := hget i (by omega)
    obtain ⟨bi1, hb1, he1⟩ := hget (i + 1) hi
    have hg0 := nth_good hwf _ t bi0 hb0
    have hg1 := nth_good hwf _ t bi1 hb1
    have hd0 : bi0.depth + (d - 1 - i) = ti.depth := hg0.2 ti htl
    have hd1 : bi1.depth + (d - 1 - (i + 1)) = ti.depth := hg1.2 ti htl
    rw [he0, he1]
    show depthOf s bi1.block_hash = depthOf s bi0.block_hash + 1
    rw [depthOf_of_lookup hg0.1.1, depthOf_of_lookup hg1.1.1]
    have hilt : i + 1 < d := by omega
    omega
  · intro hlast
    obtain ⟨bi0, hb0, he0⟩ := hget (d - 1) hlast
    have hdpos : 0 < d := by omega
    have hidx : d - 1 - (d - 1) = 0 := by omega
    rw [hidx] at hb0
    have : bi0 = ti := by
      have hb0' : get_block_info s t = .ok bi0 := hb0
      rw [get_block_info_ok] at hb0'
      rw [htl] at hb0'
      injection hb0' with h2
      exact h2.symm
    subst this
    rw [he0]
    show bi0.block_hash = t
    exact lookupInfo_hash htl

/-- Witness for C1 at the concrete three-block chain:  `1` is an ancestor of
`3` at distance 2, and the stream yields the two blocks at depths 2 and 3,
ending at hash 3. -/
theorem C1_witness :
    wfB chain3 = true ∧ IsAncestorAt chain3 1 3 2 ∧
    (∃ st blocks, stream_from_to chain3 1 3 = .ok st ∧ streamList chain3 st = .ok blocks ∧
      blocks.length = 2 ∧
      (∀ i, (hi : i + 1 < blocks.length) →
        depthOf chain3 ((blocks.get ⟨i + 1, hi⟩).hash) =
          depthOf chain3 ((blocks.get ⟨i, by omega⟩).hash) + 1) ∧
      (∀ hlast : 2 - 1 < blocks.length, (blocks.get ⟨2 - 1, hlast⟩).hash = 3)) :=
  ⟨by decide, ⟨⟨1, 1, 0⟩, by decide, by decide⟩,
    C1_stream_from_to_yields_ancestor_chain chain3 1 3 2 (by decide)
      ⟨⟨1, 1, 0⟩, by decide, by decide⟩⟩

/-- C5: `stream_from_to` fails with `CannotIterate` exactly when `from` is
resolvable but not an ancestor of `to`, fails with `NotFound` when either hash
is unresolvable, and otherwise returns the forward stream seeded with `to`'s
metadata and the computed distance; a returned stream never produces
`CannotIterate` (it arises only at setup). -/
theorem C5_stream_from_to_error_contract (s : Store) (hwf : wfB s = true) :
    (∀ f t fi ti, lookupInfo s f = some fi → lookupInfo s t = some ti →
       (∀ d, ¬ IsAncestorAt s f t d) → stream_from_to s f t = .error .CannotIterate) ∧
    (∀ f t, lookupInfo s f = none ∨ lookupInfo s t = none →
       stream_from_to s f t = .error .BlockNotFound) ∧
    (∀ f t d, IsAncestorAt s f t d →
       ∃ ti, lookupInfo s t = some ti ∧
         stream_from_to s f t = .ok (BlockIterState.new ti d)) ∧
    (∀ n st e, runIter s n st = .error e → e ≠ .storage .CannotIterate) := by
  refine ⟨?_, ?_, ?_, ?_⟩
  · intro f t fi ti hf ht hno
    unfold stream_from_to
    simp only [is_ancestor_none_of_not hf ht hno]
  · intro f t hmiss
    unfold stream_from_to
    simp only [is_ancestor_notfound_of_missing hmiss]
  · intro f t d ha
    obtain ⟨hia, fi, ti, hfl, htl, hdep⟩ := is_ancestor_of_isAncestorAt hwf ha
    refine ⟨ti, htl, ?_⟩
    unfold stream_from_to
    simp only [hia, get_block_info_ok.mpr htl]
  · intro n st e hrun
    rcases runIter_error n st e hrun with h | h
    · rw [h]
      intro hcontra
      cases hcontra
    · rw [h]
      intro hcontra
      cases hcontra

/-- Witness for C5 at the concrete three-block chain: `3` is deeper than `1`
so streaming from `3` to `1` is `CannotIterate`; hash 99 is absent so that
direction is `NotFound`; streaming from `1` to `3` succeeds seeded with the
metadata of `3` at distance 2. -/
theorem C5_witness :
    stream_from_to chain3 3 1 = .error .CannotIterate ∧
    stream_from_to chain3 1 99 = .error .BlockNotFound ∧
    stream_from_to chain3 1 3 = .ok (BlockIterState.new ⟨3, 3, 2⟩ 2) := by
  have h := C5_stream_from_to_error_contract chain3 (by decide)
  refine ⟨?_, ?_, ?_⟩
  · exact h.1 3 1 ⟨3, 3, 2⟩ ⟨1, 1, 0⟩ (by decide) (by decide)
      (@not_ancestor_of_deeper chain3 3 1 ⟨3, 3, 2⟩ ⟨1, 1, 0⟩ (by decide) (by decide)
        (by decide) (by decide))
  · exact h.2.1 1 99 (Or.inr (by decide))
  · obtain ⟨ti, hti, hstream⟩ := h.2.2.1 1 3 2 ⟨⟨1, 1, 0⟩, by decide, by decide⟩
    have : ti = ⟨3, 3, 2⟩ := by
      have hti' : lookupInfo chain3 3 = some ⟨3, 3, 2⟩ := by decide
      rw [hti'] at hti
      injection hti with h2
      exact h2.symm
    rw [← this]
    exact hstream

/-- C6: for every Ancestor Walk State constructed from a target's metadata
and a distance, and along every chain of successful `get_next` calls, the
Walk Frame Stack holds frames whose depths strictly decrease from the bottom
of the stack to the top, and the current depth is at most the depth of the
top frame. -/
theorem C6_walk_frame_stack_invariant (s : Store) (t : Hash) (ti : BlockInfo) (d : Nat)
    (st : BlockIterState) (hwf : wfB s = true) (ht : lookupInfo s t = some ti)
    (hr : Reach s (BlockIterState.new ti d) st) : StackInv st := by
  suffices hsuff : IterInv s t st by
    obtain ⟨hent, hpw, _, _⟩ := hsuff
    refine ⟨hpw, ?_⟩
    intro top htop
    exact (hent top (List.mem_of_mem_head? htop)).2.2
  induction hr with
  | refl => exact iterInv_new ht d
  | step hreach hok ih =>
    have hnext := get_next_ok_has_next hok
    obtain ⟨bi, st3, _, hok2, _, _, hinv3⟩ := get_next_ok hwf ih hnext
    rw [hok] at hok2
    injection hok2 with h2
    injection h2 with _ h4
    rw [h4]
    exact hinv3

/-- Witness for C6: the invariant holds at the state reached after one
successful `get_next` from the walk over the three-block chain. -/
theorem C6_witness :
    StackInv (⟨3, 2, [⟨3, 3, 2⟩]⟩ : BlockIterState) :=
  C6_walk_frame_stack_invariant chain3 3 ⟨3, 3, 2⟩ 2 ⟨3, 2, [⟨3, 3, 2⟩]⟩ (by decide) (by decide)
    (Reach.step (Reach.refl _)
      (by decide : (BlockIterState.new ⟨3, 3, 2⟩ 2).get_next chain3 =
        .ok (⟨2, 1⟩, ⟨3, 2, [⟨3, 3, 2⟩]⟩)))

/-- C2 (code bug): with a stop hash, the reverse stream is broken.  On the
two-block chain (genesis hash 1, child hash 2 at distance 1): the facade
rejects the `(descendant, Some(ancestor))` orientation with `CannotIterate`
because it validates `is_ancestor(from, to)` with `from` as the ancestor; and
the stream constructed directly at `(descendant = 2, stop = Some 1)` never
advances `last_block` (the parent-advance only happens in the no-stop
branch), so polling returns the block at hash 2 with the state unchanged, and
two pulls yield that same block twice — never strictly decreasing in depth,
never reaching the stop block, instead of the claimed `d + 1 = 2` blocks
ending at the ancestor. -/
theorem C2_reversed_with_stop_hash_is_broken :
    stream_from_to_reversed chain2 2 (some 1) = .error .CannotIterate ∧
    stream_from_to_reversed chain2 1 (some 2) = .ok (BlockStreamReversed.new 1 (some 2)) ∧
    (BlockStreamReversed.new 2 (some 1)).poll chain2 =
      .ok (some (blockOf ⟨2, 2, 1⟩), BlockStreamReversed.new 2 (some 1)) ∧
    runReverse chain2 2 (BlockStreamReversed.new 2 (some 1)) =
      .ok ([blockOf ⟨2, 2, 1⟩, blockOf ⟨2, 2, 1⟩], BlockStreamReversed.new 2 (some 1)) := by
  decide

/-- C7: for every starting hash whose chain reaches genesis (any resolvable
hash of a well-formed store), the reverse stream with no stop hash yields
blocks in strictly decreasing depth order (each exactly one shallower), the
last block yielded is the genesis block (depth 1), and the stream then ends. -/
theorem C7_reversed_no_stop_reaches_genesis (s : Store) (h : Hash) (bi : BlockInfo)
    (hwf : wfB s = true) (hl : lookupInfo s h = some bi) :
    ∃ st blocks stf,
      stream_from_to_reversed s h none = .ok st ∧
      runReverse s (bi.depth + 1) st = .ok (blocks, stf) ∧
      blocks.length = bi.depth ∧
      (∀ i, (hi : i + 1 < blocks.length) →
         depthOf s ((blocks.get ⟨i + 1, hi⟩).hash) + 1 =
           depthOf s ((blocks.get ⟨i, by omega⟩).hash)) ∧
      (∀ hlast : bi.depth - 1 < blocks.length,
         depthOf s ((blocks.get ⟨bi.depth - 1, hlast⟩).hash) = 1) ∧
      stf.finished = true ∧ stf.poll s = .ok (none, stf) := by
  have hgood := wf_good hwf hl
  have hd1 : 1 ≤ bi.depth := hgood.2.1
  obtain ⟨blocks, stf, hrun, hlen, hget, hfin⟩ :=
    runReverse_to_genesis hwf (bi.depth - 1) h bi hl (by omega)
  have hfuel : bi.depth - 1 + 2 = bi.depth + 1 := by omega
  rw [hfuel] at hrun
  have hlen' : blocks.length = bi.depth := by omega
  refine ⟨BlockStreamReversed.new h none, blocks, stf, rfl, hrun, hlen', ?_, ?_, hfin,
    poll_finished hfin⟩
  · intro i hi
    obtain ⟨e0, h0, hd0⟩ := hget i (by omega)
    obtain ⟨e1, h1, hd1'⟩ := hget (i + 1) hi
    rw [depthOf_of_lookup h0, depthOf_of_lookup h1]
    omega
  · intro hlast
    obtain ⟨e0, h0, hd0⟩ := hget (bi.depth - 1) hlast
    rw [depthOf_of_lookup h0]
    omega

/-- Witness for C7 at the three-block chain, starting from hash 3 (depth 3). -/
theorem C7_witness :
    ∃ st blocks stf,
      stream_from_to_reversed chain3 3 none = .ok st ∧
      runReverse chain3 4 st = .ok (blocks, stf) ∧
      blocks.length = 3 ∧
      (∀ i, (hi : i + 1 < blocks.length) →
         depthOf chain3 ((blocks.get ⟨i + 1, hi⟩).hash) + 1 =
           depthOf chain3 ((blocks.get ⟨i, by omega⟩).hash)) ∧
      (∀ hlast : 3 - 1 < blocks.length,
         depthOf chain3 ((blocks.get ⟨3 - 1, hlast⟩).hash) = 1) ∧
      stf.finished = true ∧ stf.poll chain3 = .ok (none, stf) :=
  C7_reversed_no_stop_reaches_genesis chain3 3 ⟨3, 3, 2⟩ (by decide) (by decide)

/-- C3: `find_closest_ancestor` returns the checkpoint with the minimum
ancestor distance among checkpoints that are ancestors of the descendant,
keeping the earliest-listed checkpoint on equal distance, and returns `None`
exactly when no checkpoint is an ancestor. -/
theorem C3_find_closest_ancestor_minimum (s : Store) (cps : List Hash) (descendant : Hash)
    (hwf : wfB s = true) (hbound : depthsBounded s = true) :
    ∃ res, find_closest_ancestor s cps descendant = .ok res ∧
      (res = none ↔ ∀ cp ∈ cps, aDist s descendant cp = none) ∧
      (∀ a, res = some a →
        aDist s descendant a.header_hash = some a.distance ∧
        (∀ cp ∈ cps, ∀ d', aDist s descendant cp = some d' → a.distance ≤ d') ∧
        ∃ pre post, cps = pre ++ a.header_hash :: post ∧
          ∀ cp ∈ pre, ∀ d', aDist s descendant cp = some d' → a.distance < d') := by
  have hinit : AccInv s descendant [] none (2 ^ 64 - 1) := by
    constructor
    · intro _
      exact ⟨rfl, fun cp hcp => absurd hcp (by simp)⟩
    · intro a ha
      cases ha
  obtain ⟨anc', cf', hgo, hfinal⟩ := go_spec hwf hbound cps [] none (2 ^ 64 - 1) hinit
  simp only [List.nil_append] at hfinal
  refine ⟨anc'.map (fun header_hash => ⟨header_hash, cf'⟩), ?_, ?_, ?_⟩
  · unfold find_closest_ancestor
    rw [hgo]
  · constructor
    · intro hres
      have hanc : anc' = none := by
        cases hanc : anc' with
        | none => rfl
        | some a =>
          rw [hanc] at hres
          cases hres
      exact (hfinal.1 hanc).2
    · intro hall
      cases hanc : anc' with
      | none => rfl
      | some a =>
        obtain ⟨ha1, _, _, pre, post, hsplit, _⟩ := hfinal.2 a hanc
        have hmem : a ∈ cps := by
          rw [hsplit]
          exact List.mem_append.mpr (Or.inr (List.mem_cons_self _ _))
        rw [hall a hmem] at ha1
        cases ha1
  · intro a hres
    cases hanc : anc' with
    | none =>
      rw [hanc] at hres
      cases hres
    | some a0 =>
      rw [hanc] at hres
      have haeq : a = ⟨a0, cf'⟩ := by
        injection hres with h2
        exact h2.symm
      subst haeq
      obtain ⟨ha1, _, ha3, pre, post, hsplit, hpre⟩ := hfinal.2 a0 hanc
      exact ⟨ha1, ha3, pre, post, hsplit, hpre⟩

/-- Witness for C3 at the three-block chain with checkpoints `[2, 1]` against
descendant `3`: both are ancestors (distances 1 and 2), and the resolver picks
hash 2. -/
theorem C3_witness :
    find_closest_ancestor chain3 [2, 1] 3 = .ok (some ⟨2, 1⟩) ∧
    (∃ res, find_closest_ancestor chain3 [2, 1] 3 = .ok res ∧
      (res = none ↔ ∀ cp ∈ [2, 1], aDist chain3 3 cp = none) ∧
      (∀ a, res = some a →
        aDist chain3 3 a.header_hash = some a.distance ∧
        (∀ cp ∈ [2, 1], ∀ d', aDist chain3 3 cp = some d' → a.distance ≤ d') ∧
        ∃ pre post, [2, 1] = pre ++ a.header_hash :: post ∧
          ∀ cp ∈ pre, ∀ d', aDist chain3 3 cp = some d' → a.distance < d')) :=
  ⟨by decide, C3_find_closest_ancestor_minimum chain3 [2, 1] 3 (by decide) (by decide)⟩

/-- C4 counterexample: the claim says a `NotFound` arising from the descendant
hash itself is not absorbed and fails the whole resolution.  On the two-block
chain with the sole checkpoint hash 1 present and descendant hash 99 absent,
the ancestor-distance query fails with `NotFound` because of the descendant,
yet `find_closest_ancestor` succeeds with `Ok(None)` instead of failing. -/
theorem C4_counterexample :
    lookupInfo chain2 99 = none ∧
    lookupInfo chain2 1 = some ⟨1, 1, 0⟩ ∧
    is_ancestor chain2 1 99 = .error .BlockNotFound ∧
    find_closest_ancestor chain2 [1] 99 = .ok none := by
  decide

/-- C4 amended: a `NotFound` from the ancestor-distance query is absorbed
regardless of whether it concerns the checkpoint or the descendant — the
candidate is skipped and resolution continues, so a missing descendant yields
`Ok(None)` rather than a failure, and a missing checkpoint leaves the result
unchanged. -/
theorem C4_notfound_always_absorbed (s : Store) (cps : List Hash) (descendant cp : Hash) :
    (lookupInfo s descendant = none → find_closest_ancestor s cps descendant = .ok none) ∧
    (lookupInfo s cp = none →
       find_closest_ancestor s (cp :: cps) descendant =
         find_closest_ancestor s cps descendant) := by
  constructor
  · intro hdesc
    have hgo : ∀ (l : List Hash) (anc : Option Hash) (cf : Nat),
        find_closest_ancestor_go s descendant l anc cf = .ok (anc, cf) := by
      intro l
      induction l with
      | nil => intro anc cf; rfl
      | cons c rest ih =>
        intro anc cf
        have hia : is_ancestor s c descendant = .error .BlockNotFound :=
          is_ancestor_notfound_of_missing (Or.inr hdesc)
        have hred : find_closest_ancestor_go s descendant (c :: rest) anc cf =
            find_closest_ancestor_go s descendant rest anc cf := by
          conv_lhs => rw [find_closest_ancestor_go]
          simp only [hia]
        rw [hred]
        exact ih anc cf
    unfold find_closest_ancestor
    simp only [hgo cps none (2 ^ 64 - 1)]
    rfl
  · intro hcp
    have hia : is_ancestor s cp descendant = .error .BlockNotFound :=
      is_ancestor_notfound_of_missing (Or.inl hcp)
    have hred : find_closest_ancestor_go s descendant (cp :: cps) none (2 ^ 64 - 1) =
        find_closest_ancestor_go s descendant cps none (2 ^ 64 - 1) := by
      conv_lhs => rw [find_closest_ancestor_go]
      simp only [hia]
    unfold find_closest_ancestor
    rw [hred]

/-- Witness for the amended C4: on the two-block chain, descendant 99 is
absent and resolution of checkpoint `[1]` still succeeds with `None`; the
absent checkpoint 99 is skipped, leaving the result for `[99, 1]` against
descendant 2 equal to that for `[1]`. -/
theorem C4_witness :
    lookupInfo chain2 99 = none ∧
    find_closest_ancestor chain2 [1] 99 = .ok none ∧
    find_closest_ancestor chain2 [99, 1] 2 = find_closest_ancestor chain2 [1] 2 :=
  ⟨by decide, (C4_notfound_always_absorbed chain2 [1] 99 99).1 (by decide),
    (C4_notfound_always_absorbed chain2 [1] 2 99).2 (by decide)⟩

/-- C8: when the target's metadata lookup fails during `send_branch` setup,
the sink receives exactly one item — the translated storage error — and is
then closed; no block item is ever delivered on this path. -/
theorem C8_send_branch_error_path (s : Store) (to_ : Hash) (depth : Option Nat)
    (sink : MSink) (hmiss : lookupInfo s to_ = none) :
    ∃ final, send_branch s to_ depth sink = .errorPath final ∧
      final.events = sink.events ++ [.sent (.error .BlockNotFound), .closed] ∧
      ∀ b : Block, SinkEvent.sent (.ok b) ∈ final.events →
        SinkEvent.sent (.ok b) ∈ sink.events := by
  have hg : get_block_info s to_ = .error .BlockNotFound := by
    unfold get_block_info
    rw [hmiss]
  refine ⟨sendAllOnce (.error .BlockNotFound) sink, ?_, rfl, ?_⟩
  · unfold send_branch
    simp only [hg]
  · intro b hb
    unfold sendAllOnce at hb
    dsimp only at hb
    rcases List.mem_append.mp hb with hin | hin
    · exact hin
    · simp at hin

/-- Witness for C8: sending the branch of the absent hash 99 into an empty
always-ready sink delivers exactly the error item and then closes. -/
theorem C8_witness :
    ∃ final, send_branch chain2 99 none ⟨[], []⟩ = .errorPath final ∧
      final.events = ([] : List SinkEvent) ++ [.sent (.error .BlockNotFound), .closed] ∧
      ∀ b : Block, SinkEvent.sent (.ok b) ∈ final.events →
        SinkEvent.sent (.ok b) ∈ ([] : List SinkEvent) :=
  C8_send_branch_error_path chain2 99 none ⟨[], []⟩ (by decide)

/-- C9: in every driver step of the branch sender where no item is pending,
the sink accepts, and the walk still has further items after the fetched one,
the sender flushes the sink first, fetches and sends exactly one block, and
then suspends (returns not-ready after scheduling itself) rather than
fetching another block within the same step. -/
theorem C9_sender_flushes_sends_one_then_suspends (s : Store) (st : SendState)
    (sink : MSink) (b : Block) (iter' : BlockIterState)
    (hpend : st.pending = none)
    (hacc : sink.sched.head?.getD true = true)
    (hok : st.iter.get_next s = .ok (b, iter'))
    (hmore : iter'.has_next = true) :
    ∃ sink2, send_step s st sink = some (.notReady, ⟨iter', none⟩, sink2, true) ∧
      sink2.events = sink.events ++ [.flushed, .sent (.ok b)] := by
  have hnext := get_next_ok_has_next hok
  have hhn : st.iter.has_next = true := has_next_true hnext
  have hpc : st.poll_continue sink = (.ready true, st, sink.poll_complete) := by
    unfold SendState.poll_continue
    rw [hpend]
    unfold pollContinueTail
    rw [hhn]
    simp
  have hstep : send_step s st sink = st.fill_sink s sink.poll_complete := by
    unfold send_step
    simp only [hpc]
  rw [hstep]
  have hfill : st.fill_sink s sink.poll_complete =
      some (sendAttempt (.ok b) iter' sink.poll_complete) := by
    unfold SendState.fill_sink
    rw [hhn]
    simp only [if_true, hok]
  rw [hfill]
  have hsched : (sink.poll_complete).sched = sink.sched := rfl
  have hevents : (sink.poll_complete).events = sink.events ++ [.flushed] := rfl
  cases hs : sink.sched with
  | nil =>
    refine ⟨⟨sink.sched, sink.events ++ [.flushed, .sent (.ok b)]⟩, ?_, rfl⟩
    unfold sendAttempt MSink.start_send
    rw [hsched, hs]
    simp only [hmore, if_true]
    unfold MSink.poll_complete
    dsimp only
    simp [List.append_assoc]
  | cons r rest =>
    have hr : r = true := by
      rw [hs] at hacc
      simpa using hacc
    subst hr
    refine ⟨⟨rest, sink.events ++ [.flushed, .sent (.ok b)]⟩, ?_, rfl⟩
    unfold sendAttempt MSink.start_send
    rw [hsched, hs]
    simp only [if_true, hmore]
    unfold MSink.poll_complete
    dsimp only
    simp

/-- Witness for C9: one driver step over the three-block chain with an empty
always-ready sink flushes, sends the block at depth 2, and suspends with the
walk still holding the block at depth 3. -/
theorem C9_witness :
    ∃ sink2, send_step chain3 ⟨BlockIterState.new ⟨3, 3, 2⟩ 2, none⟩ ⟨[], []⟩ =
        some (.notReady, ⟨⟨3, 2, [⟨3, 3, 2⟩]⟩, none⟩, sink2, true) ∧
      sink2.events = ([] : List SinkEvent) ++ [.flushed, .sent (.ok ⟨2, 1⟩)] :=
  C9_sender_flushes_sends_one_then_suspends chain3 ⟨BlockIterState.new ⟨3, 3, 2⟩ 2, none⟩
    ⟨[], []⟩ ⟨2, 1⟩ ⟨3, 2, [⟨3, 3, 2⟩]⟩ rfl (by decide) (by decide) (by decide)

/-- C10: for every leadership log id not present in the internal registry,
`mark_wake`, `set_status` and `mark_finished` hit the `unimplemented!()`
branch (modelled as `none`, a panic) instead of returning or reporting an
error, and the public handle methods, which merely forward to these, panic
the same way — the handle interface exposes no non-panicking way to observe
a missing entry. -/
theorem C10_leadership_logs_missing_id_panics (st : ILogs) (id status : Nat)
    (h : LeadershipLogHandle) (hid : h.internal_id = id)
    (hmiss : lookupLog st.entries id = none) :
    st.mark_wake id = none ∧ st.set_status id status = none ∧
    st.mark_finished id = none ∧
    h.mark_wake st = none ∧ h.set_status st status = none ∧
    h.mark_finished st = none := by
  subst hid
  unfold LeadershipLogHandle.mark_wake LeadershipLogHandle.set_status
    LeadershipLogHandle.mark_finished
  unfold ILogs.mark_wake ILogs.set_status ILogs.mark_finished
  simp only [hmiss]
  exact ⟨trivial, trivial, trivial, trivial, trivial, trivial⟩

/-- Witness for C10: the empty registry panics on every update at id 0, also
through a handle carrying id 0. -/
theorem C10_witness :
    (ILogs.mk []).mark_wake 0 = none ∧ (ILogs.mk []).set_status 0 7 = none ∧
    (ILogs.mk []).mark_finished 0 = none ∧
    LeadershipLogHandle.mark_wake ⟨0⟩ (ILogs.mk []) = none ∧
    LeadershipLogHandle.set_status ⟨0⟩ (ILogs.mk []) 7 = none ∧
    LeadershipLogHandle.mark_finished ⟨0⟩ (ILogs.mk []) = none :=
  C10_leadership_logs_missing_id_panics (ILogs.mk []) 0 7 ⟨0⟩ rfl (by decide)

end Jorm
